import Mathlib

/-!
Shallow embedding of `lib/visemeScheduler.ts` (the viseme scheduler of this
repository) and proofs about it.

Modelling conventions:
* JS numbers are modelled by an arbitrary linear ordered field `α`
  (instantiated at `ℚ` for concrete evaluations; the intended semantics is `ℝ`).
  Transcendental functions used by the scheduler (`Math.exp`, `Math.PI`) are
  supplied through an `Analytic α` record so the model stays computable at `ℚ`;
  `realAnalytic` is the real-number instantiation.
* A JS value that may be `undefined` / `NaN` in a numeric position is modelled
  as `Option α`, with `none` standing for `undefined`/`NaN`: arithmetic on
  `none` yields `none` (NaN propagation), and every comparison with `none` is
  false, exactly as in JS.  In particular a read past the end of a
  `Float32Array` row (`row[i]` with `i ≥ row.length`) is `none`.
* `Float32Array`s are modelled as `List α` (exact rational/real arithmetic;
  float rounding is not modelled).  Array index reads use `List.get?`.
* The `while` loop of `lowerBound` is modelled with a fuel parameter; the fuel
  passed by `lowerBound` (`arr.length + 1`) strictly dominates the loop's
  iteration count, since `hi + 1 - lo` strictly decreases on every iteration.
-/

namespace VisemeScheduler

/-- Number of pose channels (`COLS` in the source). -/
abbrev COLS : Nat := 15

/-- A JS numeric value that may be `undefined`/`NaN` (modelled as `none`). -/
abbrev JsNum (α : Type) := Option α

variable {α : Type} [LinearOrderedField α]

/-- Source: `function clamp01(x) { return x < 0 ? 0 : (x > 1 ? 1 : x); }` -/
def clamp01 (x : α) : α := if x < 0 then 0 else if 1 < x then 1 else x

/-- Source: `function lerp(a, b, t) { return a + (b - a) * (t < 0 ? 0 : t > 1 ? 1 : t); }` -/
def lerp (a b t : α) : α := a + (b - a) * (if t < 0 then 0 else if 1 < t then 1 else t)

/-- Source: `catmullRom(p0, p1, p2, p3, t)`, — the cubic Catmull-Rom basis of the source. -/
def catmullRom (p0 p1 p2 p3 t : α) : α :=
  0.5 * ((2 * p1) + (-p0 + p2) * t + (2 * p0 - 5 * p1 + 4 * p2 - p3) * (t * t) +
    (-p0 + 3 * p1 - 3 * p2 + p3) * (t * t * t))

/-- The `while (lo <= hi)` loop body of `lowerBound`, with a fuel parameter
standing in for the (always terminating) JS loop.  `arr[mid]` is in bounds on
every call issued by `lowerBound`, so `getD _ 0` agrees with the JS read. -/
def lowerBoundAux (arr : List α) (t : α) : Nat → Int → Int → Int
  | 0, lo, _ => lo
  | fuel + 1, lo, hi =>
    if lo ≤ hi then
      if arr.getD ((lo + hi) / 2).toNat 0 < t then
        lowerBoundAux arr t fuel ((lo + hi) / 2 + 1) hi
      else
        lowerBoundAux arr t fuel lo ((lo + hi) / 2 - 1)
    else lo

/-- Source: `function lowerBound(arr, t)`, binary search returning
`Math.max(1, Math.min(arr.length - 1, lo))`. -/
def lowerBound (arr : List α) (t : α) : Nat :=
  (max 1 (min ((arr.length : Int) - 1)
    (lowerBoundAux arr t (arr.length + 1) 0 ((arr.length : Int) - 1)))).toNat

/-- The fields of `AudioChunkMsg` relevant to the scheduler.  Optional fields
are `Option`s (`none` = the field is absent/`undefined`). -/
structure Msg (α : Type) where
  audio : Option String := none
  viseme : List (List α) := []
  viseme_times : Option (List α) := none
  duration_ms : Option α := none
  frame_ms : Option α := none
  viseme_fps : Option α := none

/-- The sanitizing pass of `buildTimes` over explicit `viseme_times`:
`const v = Math.max(0, isFinite(t[i]) ? t[i] : prev); out[i] = v < prev ? prev : v; prev = out[i];`
(`isFinite` is always true in this model, where inputs are field elements). -/
def sanitizeTimes : α → List α → List α
  | _, [] => []
  | prev, x :: xs =>
    let v := max 0 x
    let w := if v < prev then prev else v
    w :: sanitizeTimes w xs

/-- Source: `function buildTimes(framesN, msg)` — derive the raw time axis from the
timing hints, in the source's priority order. -/
def buildTimes (framesN : Nat) (msg : Msg α) : List α :=
  if 2 ≤ (msg.viseme_times.getD []).length then
    sanitizeTimes 0 ((msg.viseme_times.getD []).take framesN)
  else if 0 < msg.frame_ms.getD 0 then
    (List.range framesN).map (fun i : Nat => (i : α) * (msg.frame_ms.getD 0 / 1000))
  else if 0 < msg.viseme_fps.getD 0 then
    (List.range framesN).map (fun i : Nat => (i : α) * (1 / msg.viseme_fps.getD 0))
  else
    (List.range framesN).map (fun i : Nat => (i : α) *
      (if 1 < framesN then max 0.02 (msg.duration_ms.getD 0 / 1000) / ((framesN : α) - 1)
       else max 0.02 (msg.duration_ms.getD 0 / 1000)))

/-- JS `a || b` on numbers, for the values arising here (no `NaN` inputs):
`0` is the only falsy value. -/
def jsOr (a b : α) : α := if a = 0 then b else a

/-- JS string truthiness of the optional `msg.audio` field
(`undefined` and `""` are falsy). -/
def strTruthy : Option String → Bool
  | none => false
  | some s => !s.isEmpty

/-- The scheduler options (`opts`), with the source's default values
already substituted (`opts?.zeta ?? 0.84`, ...). -/
structure Params (α : Type) [LinearOrderedField α] where
  zeta : α := 0.84
  freqBase : α := 7.5
  freqJaw : α := 10.0
  exaggeration : α := 1.04
  crossfadeS : α := 0.085
  neutralDecayPerSec : α := 1.0

/-- The transcendental functions consumed by the scheduler (`Math.exp`,
`Math.PI`), abstracted so the model can be evaluated at `ℚ`. -/
structure Analytic (α : Type) where
  exp : α → α
  pi : α

/-- The real-number instantiation: the intended semantics of the model. -/
noncomputable def realAnalytic : Analytic ℝ := ⟨Real.exp, Real.pi⟩

/-- The `Chunk` record of the source.  `audioEl` is abstracted to the Boolean
`hasAudio` (whether `new Audio(...)` was attached at push time). -/
structure Chunk (α : Type) where
  frames : List (List α)
  timesRaw : List α
  times : List α
  duration : α
  hasAudio : Bool
  startedAt : α
  fadeInEnd : α
  fadeInFrom : Fin COLS → JsNum α
  done : Bool

/-- The closure state of `createVisemeScheduler`: pending queue, active chunk,
mute flag, the persistent pose (`pos`) and velocity (`vel`) vectors, and the
last tick timestamp. -/
structure SchedState (α : Type) where
  queue : List (Chunk α)
  active : Option (Chunk α)
  muted : Bool
  pos : Fin COLS → JsNum α
  vel : Fin COLS → JsNum α
  lastTick : α

/-- The freshly created scheduler state (`pos`/`vel` are zero-filled
`Float32Array(COLS)`s; `lastTick = performance.now()/1000` at creation). -/
def initState (t0 : α) : SchedState α :=
  { queue := [], active := none, muted := false,
    pos := fun _ => some 0, vel := fun _ => some 0, lastTick := t0 }

/-- The chunk construction performed by `pushChunk` on a message:
`frames` honors only the first `COLS` entries of each row, clamped to `[0,1]`
(`Float32Array.from((row || []).slice(0, COLS).map(v => clamp01(Number(v) || 0)))` —
note: a shorter row stays shorter, it is NOT padded to `COLS`). -/
def mkChunk (msg : Msg α) (muted : Bool) : Chunk α :=
  let frames := msg.viseme.map (fun row => (row.take COLS).map (fun v => clamp01 v))
  { frames := frames
    timesRaw := buildTimes frames.length msg
    times := []
    duration := max 0.02 (msg.duration_ms.getD 0 / 1000)
    hasAudio := strTruthy msg.audio && !muted
    startedAt := 0
    fadeInEnd := 0
    fadeInFrom := fun _ => some 0
    done := false }

/-- The `begin(durEl)` closure of `startNext`: rescale the raw axis to the
element duration (`scale = rawTail > 0 ? durEl / rawTail : 1`), record the
current pose as the crossfade seed, and arm the crossfade window.
`curPos` is the scheduler's `pos` vector at activation time. -/
def beginChunk (P : Params α) (now durEl : α) (curPos : Fin COLS → JsNum α)
    (ch : Chunk α) : Chunk α :=
  let rawTail := ch.timesRaw.getLastD 0
  let scale := if 0 < rawTail then durEl / rawTail else 1
  let times := ch.timesRaw.map (fun x => x * scale)
  { ch with
    times := times
    duration := jsOr (times.getLastD 0) (max 0.02 durEl)
    startedAt := now
    fadeInFrom := curPos
    fadeInEnd := now + P.crossfadeS }

/-- Source: `function startNext()`.  With an audio element the activation waits for
`loadedmetadata` (modelled by the separate `audioMeta` event); without one,
`begin(d)` runs synchronously with `d = ch.duration || (rawTail || 0)`. -/
def startNext (P : Params α) (now : α) (s : SchedState α) : SchedState α :=
  match s.active, s.queue with
  | some _, _ => s
  | none, [] => s
  | none, ch :: rest =>
    if ch.hasAudio && !s.muted then
      { s with active := some ch, queue := rest }
    else
      { s with
        active := some (beginChunk P now (jsOr ch.duration (jsOr (ch.timesRaw.getLastD 0) 0))
          s.pos ch)
        queue := rest }

/-- Source: `pushChunk(msg)`: append the built chunk to the queue, then `startNext()`. -/
def pushChunk (P : Params α) (now : α) (msg : Msg α) (s : SchedState α) : SchedState α :=
  startNext P now { s with queue := s.queue ++ [mkChunk msg s.muted] }

/-- The `loadedmetadata` handler `onMeta` of `startNext`: begins the active
audio chunk with `d = (isFinite(dur) && dur > 0) ? dur : (ch.duration || (rawTail || 0) || 0.5)`.
`mediaDur = none` models a non-finite reported duration. -/
def audioMeta (P : Params α) (now : α) (mediaDur : Option α) (s : SchedState α) :
    SchedState α :=
  match s.active with
  | none => s
  | some ch =>
    if ch.hasAudio then
      { s with active := some (beginChunk P now
          (match mediaDur with
           | some v => if 0 < v then v
              else jsOr (jsOr ch.duration (jsOr (ch.timesRaw.getLastD 0) 0)) 0.5
           | none => jsOr (jsOr ch.duration (jsOr (ch.timesRaw.getLastD 0) 0)) 0.5)
          s.pos ch) }
    else s

/-- The completion callback (`onended` / the fallback timer):
`ch.done = true; active = null; startNext();` (the discarded chunk's `done`
flag is dropped together with the chunk). -/
def completeActive (P : Params α) (now : α) (s : SchedState α) : SchedState α :=
  startNext P now { s with active := none }

/-- Source: `stop()`: clear the pending queue and deactivate (pausing of the audio
element has no model state). -/
def stop (s : SchedState α) : SchedState α :=
  { s with queue := [], active := none }

/-- Source: `setMuted(v)` (pausing of the audio element has no model state). -/
def setMuted (b : Bool) (s : SchedState α) : SchedState α :=
  { s with muted := b }

/-- JS read `row[ch]` on a `Float32Array` row: `undefined` (= `none`) past the
end. -/
def chanRead (fs : List (List α)) (i j ch : Nat) : JsNum α :=
  ((fs.get? i).getD ((fs.get? j).getD [])).get? ch

/-- Per-channel tail of `sampleCatmullRom`:
`out[i] = clamp01(catmullRom(f_1[i], f0[i], f1[i], f2[i], u))`, with `none`
(NaN) propagating through the arithmetic and `clamp01(NaN) = NaN`. -/
def crClamp (a b c d : JsNum α) (u : α) : JsNum α :=
  match a, b, c, d with
  | some a, some b, some c, some d => some (clamp01 (catmullRom a b c d u))
  | _, _, _, _ => none

/-- The local parameter `u = (t1 > t0) ? (t - t0) / (t1 - t0) : 0` of
`sampleCatmullRom`: `0` whenever the bracket has zero width or `times[i1]` is
out of range (a comparison against `undefined`/NaN is false in JS). -/
def uOf (times : List α) (idx1 : Nat) (t : α) : α :=
  match times.get? (idx1 - 1), times.get? idx1 with
  | some t0, some t1 => if t0 < t1 then (t - t0) / (t1 - t0) else 0
  | _, _ => 0

/-- Source: `sampleCatmullRom(ch, t, out)`, channel by channel.  The indices are
`i1 = idx1`, `i0 = idx1 - 1`, `i_1 = max(i0 - 1, 0)` (truncated `Nat`
subtraction) and `i2 = min(i1 + 1, frames.length - 1)`; the row fallbacks
`ch.frames[i] || ch.frames[0]` / `|| ch.frames[ch.frames.length-1]` are the
`getD` defaults inside `chanRead`. -/
def sampleCatmullRom (fs : List (List α)) (times : List α) (t : α) (i : Nat) : JsNum α :=
  crClamp (chanRead fs (lowerBound times t - 1 - 1) 0 i)
    (chanRead fs (lowerBound times t - 1) 0 i)
    (chanRead fs (lowerBound times t) (fs.length - 1) i)
    (chanRead fs (min (lowerBound times t + 1) (fs.length - 1)) (fs.length - 1) i)
    (uOf times (lowerBound times t) t)

/-- JS `lerp` lifted to possibly-NaN endpoints (`t` itself is always a real
number here; a NaN endpoint makes the result NaN). -/
def jsLerp (a b : JsNum α) (t : α) : JsNum α :=
  match a, b with
  | some a, some b => some (lerp a b t)
  | _, _ => none

/-- The clamped tick length `dt = Math.max(0.001, Math.min(0.033, now - lastTick))`. -/
def dtOf (now lastTick : α) : α := max 0.001 (min 0.033 (now - lastTick))

/-- One channel of the critically-damped spring update (the body of the
`for` loop of `getFrame`'s active branch); `none` (NaN) in the target, the
position or the velocity poisons both outputs, as in JS. -/
def springChan (P : Params α) (A : Analytic α) (dt f : α) (target p v : JsNum α) :
    JsNum α × JsNum α :=
  match target, p, v with
  | some tgt, some pp, some vv =>
    let w := 2 * A.pi * f
    let acc := w * w * (tgt - pp) - 2 * P.zeta * w * vv
    let v2 := vv + acc * dt
    let p2 := pp + v2 * dt
    (some (clamp01 (p2 * (if P.exaggeration = 0 then 1 else P.exaggeration))), some v2)
  | _, _, _ => (none, none)

/-- The idle decay factor `k = exp(-neutralDecayPerSec * dt)`. -/
def decayK (P : Params α) (A : Analytic α) (now lastTick : α) : α :=
  A.exp (-P.neutralDecayPerSec * dtOf now lastTick)

/-- The idle branch of `getFrame`: neutral relaxation
`pos[i] *= k; vel[i] *= k`, returning `Array.from(pos)`. -/
def idleStep (P : Params α) (A : Analytic α) (now : α) (s : SchedState α) :
    Option (List (JsNum α)) × SchedState α :=
  (some (List.ofFn fun i => (s.pos i).map (fun x => x * decayK P A now s.lastTick)),
    { s with
      pos := fun i => (s.pos i).map (fun x => x * decayK P A now s.lastTick)
      vel := fun i => (s.vel i).map (fun x => x * decayK P A now s.lastTick)
      lastTick := now })

/-- PlaybackClock resolution of `getFrame`: the audio element's `currentTime`
(clamped into `[0, duration]`) when there is an audio element reporting a
number, wall-clock time since activation (clamped likewise) otherwise.
`ap` is the reported `currentTime` (`none` when there is no audio element or
its `currentTime` is NaN). -/
def clockOf (now : α) (ap : Option α) (ch : Chunk α) : α :=
  match ap with
  | some ct => if ch.hasAudio then max 0 (min ct ch.duration)
      else min (max 0 (now - ch.startedAt)) ch.duration
  | none => min (max 0 (now - ch.startedAt)) ch.duration

/-- Channel frequency: `const f = (i === 0) ? freqJaw : freqBase`. -/
def freqOf (P : Params α) (i : Fin COLS) : α :=
  if i.val = 0 then P.freqJaw else P.freqBase

/-- The (possibly crossfaded) Catmull-Rom target of one channel. -/
def targetOf (P : Params α) (now t : α) (ch : Chunk α) (i : Fin COLS) : JsNum α :=
  if now < ch.fadeInEnd then
    jsLerp (ch.fadeInFrom i) (sampleCatmullRom ch.frames ch.times t i.val)
      (1 - max 0 ((ch.fadeInEnd - now) / P.crossfadeS))
  else sampleCatmullRom ch.frames ch.times t i.val

/-- One channel of the active branch: spring-filter the (crossfaded) target. -/
def activeUpd (P : Params α) (A : Analytic α) (now : α) (ap : Option α)
    (ch : Chunk α) (s : SchedState α) (i : Fin COLS) : JsNum α × JsNum α :=
  springChan P A (dtOf now s.lastTick) (freqOf P i)
    (targetOf P now (clockOf now ap ch) ch i) (s.pos i) (s.vel i)

/-- The active branch of `getFrame`: playback-clock resolution, Catmull-Rom
sampling, crossfade, spring filter, final per-channel clamp. -/
def activeStep (P : Params α) (A : Analytic α) (now : α) (ap : Option α)
    (ch : Chunk α) (s : SchedState α) : Option (List (JsNum α)) × SchedState α :=
  (some (List.ofFn fun i => (activeUpd P A now ap ch s i).1),
    { s with
      pos := fun i => (activeUpd P A now ap ch s i).1
      vel := fun i => (activeUpd P A now ap ch s i).2
      lastTick := now })

/-- Source: `getFrame()`: returns the displayed pose (`Array.from(pos)` in both
branches — the `null` of the declared return type `number[] | null` is never
produced) and the updated scheduler state. -/
def getFrame (P : Params α) (A : Analytic α) (now : α) (ap : Option α)
    (s : SchedState α) : Option (List (JsNum α)) × SchedState α :=
  match s.active with
  | none => idleStep P A now s
  | some ch =>
    if ch.frames.length = 0 ∨ ch.times.length = 0 then idleStep P A now s
    else activeStep P A now ap ch s

/-- The states reachable through the scheduler's public interface, for pushed
messages satisfying `Q`.  `tick`'s `ap` and `meta`'s `mediaDur` are
environment inputs (audio element position / reported duration). -/
inductive Reachable (P : Params α) (A : Analytic α) (Q : Msg α → Prop) :
    SchedState α → Prop
  | init (t0 : α) : Reachable P A Q (initState t0)
  | push {s : SchedState α} (now : α) (msg : Msg α) :
      Reachable P A Q s → Q msg → Reachable P A Q (pushChunk P now msg s)
  | tick {s : SchedState α} (now : α) (ap : Option α) :
      Reachable P A Q s → Reachable P A Q (getFrame P A now ap s).2
  | stopEv {s : SchedState α} : Reachable P A Q s → Reachable P A Q (stop s)
  | mute {s : SchedState α} (b : Bool) :
      Reachable P A Q s → Reachable P A Q (setMuted b s)
  | meta {s : SchedState α} (now : α) (mediaDur : Option α) :
      Reachable P A Q s → Reachable P A Q (audioMeta P now mediaDur s)
  | ended {s : SchedState α} (now : α) :
      Reachable P A Q s → Reachable P A Q (completeActive P now s)

/-! ### Basic lemmas about the helpers -/

lemma clamp01_nonneg (x : α) : 0 ≤ clamp01 x := by
  unfold clamp01
  split_ifs with h1 h2
  · exact le_refl 0
  · exact zero_le_one
  · exact le_of_not_lt h1

lemma clamp01_le_one (x : α) : clamp01 x ≤ 1 := by
  unfold clamp01
  split_ifs with h1 h2
  · exact zero_le_one
  · exact le_refl 1
  · exact le_of_not_lt h2

lemma clamp01_eq_self {x : α} (h0 : 0 ≤ x) (h1 : x ≤ 1) : clamp01 x = x := by
  unfold clamp01
  rw [if_neg (not_lt.mpr h0), if_neg (not_lt.mpr h1)]

lemma sanitizeTimes_length (prev : α) (l : List α) :
    (sanitizeTimes prev l).length = l.length := by
  induction l generalizing prev with
  | nil => rfl
  | cons x xs ih => simp [sanitizeTimes, ih]

lemma sanitizeTimes_step_le (prev x : α) :
    prev ≤ (if max 0 x < prev then prev else max 0 x) ∧
    0 ≤ (if max 0 x < prev then prev else max 0 x) := by
  split_ifs with h
  · exact ⟨le_refl prev, le_trans (le_max_left 0 x) (le_of_lt h)⟩
  · exact ⟨le_of_not_lt h, le_max_left 0 x⟩

lemma sanitizeTimes_mem {prev : α} {l : List α} :
    ∀ y ∈ sanitizeTimes prev l, prev ≤ y ∧ 0 ≤ y := by
  induction l generalizing prev with
  | nil => simp [sanitizeTimes]
  | cons x xs ih =>
    intro y hy
    simp only [sanitizeTimes, List.mem_cons] at hy
    rcases hy with h | h
    · subst h
      exact sanitizeTimes_step_le prev x
    · have hstep := sanitizeTimes_step_le prev x
      have := ih y h
      exact ⟨le_trans hstep.1 this.1, this.2⟩

lemma sanitizeTimes_chain' (prev : α) (l : List α) :
    (sanitizeTimes prev l).Chain' (· ≤ ·) := by
  induction l generalizing prev with
  | nil => simp [sanitizeTimes]
  | cons x xs ih =>
    simp only [sanitizeTimes]
    refine List.chain'_cons'.mpr ⟨?_, ih _⟩
    intro y hy
    exact (sanitizeTimes_mem y (List.mem_of_mem_head? hy)).1

lemma sanitizeTimes_head (x : α) (xs : List α) :
    (sanitizeTimes 0 (x :: xs)).head? = some (max 0 x) := by
  simp only [sanitizeTimes, List.head?_cons, Option.some_inj]
  rw [if_neg (not_lt.mpr (le_max_left 0 x))]

lemma chain'_range_map_mul (n : Nat) (step : α) (h : 0 ≤ step) :
    (((List.range n).map fun i : Nat => (i : α) * step)).Chain' (· ≤ ·) := by
  rw [List.chain'_iff_get]
  intro i hi
  simp only [List.length_map, List.length_range] at hi
  simp only [List.get_map, List.get_range]
  have hc : (i : α) ≤ ((i + 1 : Nat) : α) := by
    push_cast
    linarith
  exact mul_le_mul_of_nonneg_right hc h

lemma buildTimes_length (framesN : Nat) (msg : Msg α) :
    (buildTimes framesN msg).length =
      if 2 ≤ (msg.viseme_times.getD []).length then
        min framesN (msg.viseme_times.getD []).length
      else framesN := by
  unfold buildTimes
  split
  · rw [sanitizeTimes_length, List.length_take]
  · split
    · simp
    · split <;> simp

/-! ### Claims C2, C3, C4 -/

/-- C2 counterexample input: three viseme rows but only two explicit
timestamps (`viseme_times` has length 2 ≥ 2, so it is used and truncation
cannot pad it up to the frame count). -/
def msgC2 : Msg ℚ := { viseme := [[], [], []], viseme_times := some [0, 1] }

/-- C2 (counterexample): `pushChunk` on `msgC2` stores 3 frames but a raw time
axis of length 2, so `len(frames) == len(times)` fails for this chunk. -/
theorem pushChunk_len_mismatch :
    (mkChunk msgC2 false).frames.length = 3 ∧
    (mkChunk msgC2 false).timesRaw.length = 2 := by
  constructor <;> norm_num [mkChunk, buildTimes, sanitizeTimes, max_def, msgC2]

/-- C2 (amended): `len(frames) == len(timesRaw)` holds whenever the explicit
`viseme_times` list is absent or shorter than 2 (so a synthesized axis is
used), or has at least as many entries as there are viseme rows — in
particular whenever it has the documented length `N`. -/
theorem pushChunk_len_eq (msg : Msg α) (muted : Bool)
    (h : (msg.viseme_times.getD []).length < 2 ∨
      msg.viseme.length ≤ (msg.viseme_times.getD []).length) :
    (mkChunk msg muted).frames.length = (mkChunk msg muted).timesRaw.length := by
  have hf : (mkChunk msg muted).frames.length = msg.viseme.length := by
    simp [mkChunk]
  have ht : (mkChunk msg muted).timesRaw = buildTimes msg.viseme.length msg := by
    simp [mkChunk]
  rw [hf, ht, buildTimes_length]
  split
  · rcases h with h | h
    · omega
    · omega
  · rfl

/-- Witness for C2 (amended), at a message with `viseme_times` of exactly the
frame count. -/
theorem pushChunk_len_eq_witness :
    ((({ viseme := [[], []], viseme_times := some [0, 1] } : Msg ℚ).viseme_times.getD
        []).length < 2 ∨
      ({ viseme := [[], []], viseme_times := some [0, 1] } : Msg ℚ).viseme.length ≤
        (({ viseme := [[], []], viseme_times := some [0, 1] } : Msg ℚ).viseme_times.getD
          []).length) ∧
    (mkChunk ({ viseme := [[], []], viseme_times := some [0, 1] } : Msg ℚ) false).frames.length =
      (mkChunk ({ viseme := [[], []], viseme_times := some [0, 1] } : Msg ℚ) false).timesRaw.length :=
  ⟨Or.inr (by norm_num), pushChunk_len_eq _ false (Or.inr (by norm_num))⟩

/-- C3 counterexample input: a single viseme row with a single element. -/
def msgC3 : Msg ℚ := { viseme := [[1/2]] }

/-- C3 (counterexample): the stored frame row for a 1-element input row has
length 1, not `COLS`, and its channel 1 reads back as `undefined` (`none`),
not as `0` — `pushChunk` does not zero-pad short rows. -/
theorem pushChunk_row_not_padded :
    ((mkChunk msgC3 false).frames.getD 0 []).length = 1 ∧
    ((mkChunk msgC3 false).frames.getD 0 []).get? 1 = none := by
  constructor <;> norm_num [mkChunk, clamp01, msgC3]

/-- C3 (amended): each stored row honors only the first `COLS` elements of the
input row and clamps each into `[0,1]`; a row with fewer than `COLS` elements
is stored at its own (shorter) length, and its missing channels read back as
`undefined` (`none`), not as `0`. -/
theorem pushChunk_row_stored (msg : Msg α) (muted : Bool) (j : Nat)
    (hj : j < msg.viseme.length) :
    ((mkChunk msg muted).frames.getD j []).length = min (msg.viseme.getD j []).length COLS ∧
    (∀ i : Nat, i < min (msg.viseme.getD j []).length COLS →
      ((mkChunk msg muted).frames.getD j []).get? i =
        some (clamp01 ((msg.viseme.getD j []).getD i 0))) ∧
    (∀ i : Nat, min (msg.viseme.getD j []).length COLS ≤ i →
      ((mkChunk msg muted).frames.getD j []).get? i = none) ∧
    (∀ x ∈ (mkChunk msg muted).frames.getD j [], 0 ≤ x ∧ x ≤ 1) := by
  have hframes : (mkChunk msg muted).frames =
      msg.viseme.map (fun row => (row.take COLS).map (fun v => clamp01 v)) := rfl
  have h1 : j < (msg.viseme.map (fun row => (row.take COLS).map (fun v => clamp01 v))).length := by
    simpa using hj
  have hrow : (mkChunk msg muted).frames.getD j [] =
      ((msg.viseme.getD j []).take COLS).map (fun v => clamp01 v) := by
    rw [hframes]
    exact List.getD_map msg.viseme [] (fun row => (row.take COLS).map (fun v => clamp01 v))
  refine ⟨?_, ?_, ?_, ?_⟩
  · rw [hrow]
    simp [List.length_take, Nat.min_comm]
  · intro i hi
    have hiC : i < COLS := (lt_min_iff.mp hi).2
    have hiL : i < (msg.viseme.getD j []).length := (lt_min_iff.mp hi).1
    rw [hrow, List.get?_eq_getElem?, List.getElem?_map, List.getElem?_take_of_lt hiC,
      List.getElem?_eq_getElem hiL, List.getD_eq_getElem _ _ hiL]
    rfl
  · intro i hi
    rw [hrow]
    apply List.get?_eq_none.mpr
    simp only [List.length_map, List.length_take]
    omega
  · intro x hx
    rw [hrow] at hx
    obtain ⟨v, _, rfl⟩ := List.mem_map.mp hx
    exact ⟨clamp01_nonneg v, clamp01_le_one v⟩

/-- Witness input for C3 (amended): one row with two entries, one of them
out of range. -/
def msgW3 : Msg ℚ := { viseme := [[2, 1/2]] }

/-- Witness for C3 (amended) at `msgW3`, row 0: stored length is
`min 2 COLS = 2`, channel 0 is the clamped first entry, channel 2 is absent. -/
theorem pushChunk_row_stored_witness :
    (0 : Nat) < msgW3.viseme.length ∧
    ((mkChunk msgW3 false).frames.getD 0 []).length = min (msgW3.viseme.getD 0 []).length COLS ∧
    ((mkChunk msgW3 false).frames.getD 0 []).get? 0 =
      some (clamp01 ((msgW3.viseme.getD 0 []).getD 0 0)) ∧
    ((mkChunk msgW3 false).frames.getD 0 []).get? 2 = none :=
  ⟨by norm_num [msgW3],
    (pushChunk_row_stored msgW3 false 0 (by norm_num [msgW3])).1,
    (pushChunk_row_stored msgW3 false 0 (by norm_num [msgW3])).2.1 0 (by norm_num [msgW3]),
    (pushChunk_row_stored msgW3 false 0 (by norm_num [msgW3])).2.2.1 2 (by norm_num [msgW3])⟩

/-- C4 counterexample input: explicit timestamps starting at `0.5`. -/
def msgC4 : Msg ℚ := { viseme_times := some [1/2, 1] }

/-- C4 (counterexample): with explicit timestamps `[0.5, 1]` the built raw
axis is `[0.5, 1]` — its first entry is not `0`, refuting `times[0] == 0`. -/
theorem buildTimes_head_ne_zero :
    buildTimes 2 msgC4 = [1/2, 1] ∧ (buildTimes 2 msgC4).getD 0 0 ≠ 0 := by
  constructor <;> norm_num [buildTimes, sanitizeTimes, max_def, msgC4]

lemma range_map_getD {n i : Nat} (f : ℕ → α) (hi : i < n) :
    ((List.range n).map f).getD i 0 = f i := by
  rw [List.getD_eq_getElem _ _ (by simpa using hi)]
  simp

/-- C4 (amended): the raw axis built by `buildTimes` is non-decreasing and
non-negative in every branch; `times[0] == 0` holds in the three synthesized
branches, while in the explicit-timestamps branch `times[0] = max(0, given[0])`,
which can be positive. -/
theorem buildTimes_monotone (framesN : Nat) (msg : Msg α) :
    (buildTimes framesN msg).Chain' (· ≤ ·) ∧
    (∀ x ∈ buildTimes framesN msg, 0 ≤ x) ∧
    ((msg.viseme_times.getD []).length < 2 → 0 < framesN →
      (buildTimes framesN msg).getD 0 0 = 0) ∧
    (2 ≤ (msg.viseme_times.getD []).length → 0 < framesN →
      (buildTimes framesN msg).getD 0 0 = max 0 ((msg.viseme_times.getD []).getD 0 0)) := by
  have h002 : (0 : α) ≤ 0.02 := by norm_num
  refine ⟨?_, ?_, ?_, ?_⟩
  · unfold buildTimes
    split_ifs with h1 h2 h3 h4
    · exact sanitizeTimes_chain' 0 _
    · exact chain'_range_map_mul _ _ (div_nonneg (le_of_lt h2) (by norm_num))
    · exact chain'_range_map_mul _ _ (div_nonneg zero_le_one (le_of_lt h3))
    · apply chain'_range_map_mul
      apply div_nonneg (le_trans h002 (le_max_left _ _))
      have hc : (1 : α) < framesN := by exact_mod_cast h4
      linarith
    · exact chain'_range_map_mul _ _ (le_trans h002 (le_max_left _ _))
  · unfold buildTimes
    split_ifs with h1 h2 h3 h4
    · exact fun x hx => (sanitizeTimes_mem x hx).2
    · intro x hx
      obtain ⟨i, _, rfl⟩ := List.mem_map.mp hx
      exact mul_nonneg (Nat.cast_nonneg i) (div_nonneg (le_of_lt h2) (by norm_num))
    · intro x hx
      obtain ⟨i, _, rfl⟩ := List.mem_map.mp hx
      exact mul_nonneg (Nat.cast_nonneg i) (div_nonneg zero_le_one (le_of_lt h3))
    · intro x hx
      obtain ⟨i, _, rfl⟩ := List.mem_map.mp hx
      refine mul_nonneg (Nat.cast_nonneg i) ?_
      apply div_nonneg (le_trans h002 (le_max_left _ _))
      have hc : (1 : α) < framesN := by exact_mod_cast h4
      linarith
    · intro x hx
      obtain ⟨i, _, rfl⟩ := List.mem_map.mp hx
      exact mul_nonneg (Nat.cast_nonneg i) (le_trans h002 (le_max_left _ _))
  · intro hlen hN
    unfold buildTimes
    rw [if_neg (by omega)]
    split_ifs <;> rw [range_map_getD _ hN] <;> simp
  · intro hlen hN
    unfold buildTimes
    rw [if_pos hlen]
    rcases hl : msg.viseme_times.getD [] with _ | ⟨a, rest⟩
    · rw [hl] at hlen
      simp at hlen
    · rcases framesN with _ | m
      · omega
      · simp only [List.take_succ_cons, sanitizeTimes]
        rw [if_neg (not_lt.mpr (le_max_left 0 a))]
        simp

/-- Witness input for C4 (amended): a fixed per-frame interval of 10 ms. -/
def msgW4 : Msg ℚ := { frame_ms := some 10 }

/-- Witness for C4 (amended) at `msgW4` with 3 frames: the synthesized axis is
ordered and starts at 0, and its entries are non-negative. -/
theorem buildTimes_monotone_witness :
    (buildTimes 3 msgW4).Chain' (· ≤ ·) ∧
    (buildTimes 3 msgW4).getD 0 0 = 0 ∧
    0 ≤ (buildTimes 3 msgW4).getD 2 0 :=
  ⟨(buildTimes_monotone 3 msgW4).1,
    (buildTimes_monotone 3 msgW4).2.2.1 (by norm_num [msgW4]) (by norm_num),
    (buildTimes_monotone 3 msgW4).2.1 _
      (by norm_num [buildTimes, msgW4, List.range_succ])⟩

/-- C7 (confirmed): at activation, the sampling axis is the raw axis times
`scale = durEl / rawTail` when the raw tail is positive, and the raw axis
unchanged (`scale = 1`) when the raw tail is `0` — the rescale never divides
by zero. -/
theorem beginChunk_scale (P : Params α) (now durEl : α) (curPos : Fin COLS → JsNum α)
    (ch : Chunk α) :
    (0 < ch.timesRaw.getLastD 0 →
      (beginChunk P now durEl curPos ch).times =
        ch.timesRaw.map (fun x => x * (durEl / ch.timesRaw.getLastD 0))) ∧
    (ch.timesRaw.getLastD 0 = 0 →
      (beginChunk P now durEl curPos ch).times = ch.timesRaw) := by
  constructor
  · intro h
    simp only [beginChunk, if_pos h]
  · intro h
    simp only [beginChunk, h, lt_irrefl, if_false]
    simp

/-- Witness chunk for C7: raw axis `[0, 1]` (positive tail) and `[0]`
(zero tail). -/
def chW7 : Chunk ℚ := mkChunk ({ viseme := [[], []], viseme_times := some [0, 1] } : Msg ℚ) false

/-- Witness chunk for C7 with a degenerate (all-zero) raw axis. -/
def chW7z : Chunk ℚ := mkChunk ({ viseme := [[]], duration_ms := some 1000 } : Msg ℚ) false

/-- Witness for C7 at two concrete chunks: positive raw tail gives the
`durEl / rawTail` rescale, zero raw tail leaves the axis unchanged. -/
theorem beginChunk_scale_witness :
    (0 < chW7.timesRaw.getLastD 0 ∧
      (beginChunk ({} : Params ℚ) 0 2 (fun _ => some 0) chW7).times =
        chW7.timesRaw.map (fun x => x * (2 / chW7.timesRaw.getLastD 0))) ∧
    (chW7z.timesRaw.getLastD 0 = 0 ∧
      (beginChunk ({} : Params ℚ) 0 2 (fun _ => some 0) chW7z).times = chW7z.timesRaw) :=
  ⟨⟨by norm_num [chW7, mkChunk, buildTimes, sanitizeTimes, max_def],
    (beginChunk_scale ({} : Params ℚ) 0 2 (fun _ => some 0) chW7).1
      (by norm_num [chW7, mkChunk, buildTimes, sanitizeTimes, max_def])⟩,
   ⟨by norm_num [chW7z, mkChunk, buildTimes, max_def, List.range_succ],
    (beginChunk_scale ({} : Params ℚ) 0 2 (fun _ => some 0) chW7z).2
      (by norm_num [chW7z, mkChunk, buildTimes, max_def, List.range_succ])⟩⟩

/-- C8 (confirmed): with only a total-duration hint, `buildTimes` synthesizes
`N` evenly spaced samples `i * durS / (N - 1)` with `durS` floored at 20 ms;
concretely `duration_ms = 1000` with 4 frames gives `[0, 1/3, 2/3, 1]`. -/
theorem buildTimes_duration_only :
    (∀ (msg : Msg α) (N : Nat),
      (msg.viseme_times.getD []).length < 2 → msg.frame_ms.getD 0 ≤ 0 →
      msg.viseme_fps.getD 0 ≤ 0 → 2 ≤ N →
      (buildTimes N msg).length = N ∧
      ∀ i : Nat, i < N → (buildTimes N msg).getD i 0 =
        (i : α) * (max 0.02 (msg.duration_ms.getD 0 / 1000) / ((N : α) - 1))) ∧
    buildTimes 4 ({ duration_ms := some 1000 } : Msg α) = [0, 1/3, 2/3, 1] := by
  constructor
  · intro msg N h1 h2 h3 hN
    have hcond : ¬ 2 ≤ (msg.viseme_times.getD []).length := by omega
    constructor
    · rw [buildTimes_length, if_neg hcond]
    · intro i hi
      unfold buildTimes
      rw [if_neg hcond, if_neg (not_lt.mpr h2), if_neg (not_lt.mpr h3), range_map_getD _ hi,
        if_pos (by omega : 1 < N)]
  · norm_num [buildTimes, List.range_succ, max_def]

/-- Witness input for C8: only a 40 ms total-duration hint. -/
def msgW8 : Msg ℚ := { duration_ms := some 40 }

/-- Witness for C8 at `msgW8` with 2 frames (and the hypothesis side
conditions discharged concretely). -/
theorem buildTimes_duration_only_witness :
    (msgW8.viseme_times.getD []).length < 2 ∧
    (buildTimes 2 msgW8).length = 2 ∧
    (buildTimes 2 msgW8).getD 1 0 =
      (1 : ℚ) * (max 0.02 (msgW8.duration_ms.getD 0 / 1000) / ((2 : ℚ) - 1)) :=
  ⟨by norm_num [msgW8],
    (buildTimes_duration_only.1 msgW8 2 (by norm_num [msgW8]) (by norm_num [msgW8])
      (by norm_num [msgW8]) (by norm_num)).1,
    (buildTimes_duration_only.1 msgW8 2 (by norm_num [msgW8]) (by norm_num [msgW8])
      (by norm_num [msgW8]) (by norm_num)).2 1 (by norm_num)⟩

/-- C9 (confirmed): `stop()` empties the pending queue and deactivates the
active chunk while leaving the persistent pose and velocity vectors (and
everything else) untouched; every subsequent `getFrame` call on the stopped
state takes the idle-relaxation branch. -/
theorem stop_clears (s : SchedState α) :
    (stop s).queue = [] ∧ (stop s).active = none ∧
    (stop s).pos = s.pos ∧ (stop s).vel = s.vel ∧
    ∀ (P : Params α) (A : Analytic α) (now : α) (ap : Option α),
      getFrame P A now ap (stop s) = idleStep P A now (stop s) :=
  ⟨rfl, rfl, rfl, rfl, fun _ _ _ _ => rfl⟩

/-- C10 (confirmed): `getFrame` never returns the `null` admitted by its
declared type: in every state it returns an array of exactly `COLS = 15`
channel values. -/
theorem getFrame_total (P : Params α) (A : Analytic α) (now : α) (ap : Option α)
    (s : SchedState α) :
    ∃ l, (getFrame P A now ap s).1 = some l ∧ l.length = COLS := by
  cases hA : s.active with
  | none =>
    simp only [getFrame, hA]
    exact ⟨_, rfl, by simp [idleStep]⟩
  | some ch =>
    simp only [getFrame, hA]
    split
    · exact ⟨_, rfl, by simp [idleStep]⟩
    · exact ⟨_, rfl, by simp [activeStep]⟩

/-- C6 (confirmed): `startNext` is a no-op while a chunk is active (activation
is idempotent and at most one chunk is ever active — the `active` slot is a
single `Option`); when idle it activates exactly the head of the pending
queue (preserving the chunk's frames and raw axis) and leaves the tail
pending; `pushChunk` appends to the tail of the queue, so chunks are
activated in FIFO submission order. -/
theorem startNext_fifo :
    (∀ (P : Params α) (now : α) (s : SchedState α) (c : Chunk α),
      s.active = some c → startNext P now s = s) ∧
    (∀ (P : Params α) (now : α) (s : SchedState α) (ch : Chunk α) (rest : List (Chunk α)),
      s.active = none → s.queue = ch :: rest →
      (startNext P now s).queue = rest ∧
      Option.map Chunk.frames (startNext P now s).active = some ch.frames ∧
      Option.map Chunk.timesRaw (startNext P now s).active = some ch.timesRaw) ∧
    (∀ (P : Params α) (now : α) (msg : Msg α) (s : SchedState α) (c : Chunk α),
      s.active = some c →
      (pushChunk P now msg s).queue = s.queue ++ [mkChunk msg s.muted] ∧
      (pushChunk P now msg s).active = s.active) := by
  refine ⟨?_, ?_, ?_⟩
  · intro P now s c hA
    simp only [startNext, hA]
  · intro P now s ch rest hA hQ
    simp only [startNext, hA, hQ]
    split <;> simp [beginChunk]
  · intro P now msg s c hA
    simp [pushChunk, startNext, hA]

/-- Witness chunk for C6. -/
def chW6 : Chunk ℚ := mkChunk ({ viseme := [[]] } : Msg ℚ) false

/-- Witness state for C6 with an active chunk. -/
def sW6a : SchedState ℚ := { initState 0 with active := some chW6 }

/-- Witness state for C6 with an idle scheduler and one pending chunk. -/
def sW6b : SchedState ℚ := { initState 0 with queue := [chW6] }

/-- Witness for C6 at concrete states: activation while active is a no-op,
activation while idle consumes exactly the queue head, and pushing while
active appends to the queue tail. -/
theorem startNext_fifo_witness :
    startNext ({} : Params ℚ) 0 sW6a = sW6a ∧
    ((startNext ({} : Params ℚ) 0 sW6b).queue = [] ∧
      Option.map Chunk.frames (startNext ({} : Params ℚ) 0 sW6b).active = some chW6.frames ∧
      Option.map Chunk.timesRaw (startNext ({} : Params ℚ) 0 sW6b).active =
        some chW6.timesRaw) ∧
    ((pushChunk ({} : Params ℚ) 0 msgW3 sW6a).queue =
        sW6a.queue ++ [mkChunk msgW3 sW6a.muted] ∧
      (pushChunk ({} : Params ℚ) 0 msgW3 sW6a).active = sW6a.active) :=
  ⟨startNext_fifo.1 _ 0 sW6a chW6 rfl,
    startNext_fifo.2.1 _ 0 sW6b chW6 [] rfl rfl,
    startNext_fifo.2.2 _ 0 msgW3 sW6a chW6 rfl⟩

/-! ### Binary search characterization (for C5) -/

lemma sorted_getD_mono {l : List α} (hs : l.Sorted (· ≤ ·)) {i j : Nat}
    (hij : i ≤ j) (hj : j < l.length) : l.getD i 0 ≤ l.getD j 0 := by
  rcases eq_or_lt_of_le hij with rfl | hlt
  · exact le_refl _
  · rw [List.getD_eq_getElem _ _ (lt_of_le_of_lt hij hj), List.getD_eq_getElem _ _ hj]
    have := List.pairwise_iff_get.mp hs ⟨i, lt_of_le_of_lt hij hj⟩ ⟨j, hj⟩ hlt
    simpa using this

lemma sorted_getD_strict {l : List α} (hs : l.Sorted (· < ·)) {i j : Nat}
    (hij : i < j) (hj : j < l.length) : l.getD i 0 < l.getD j 0 := by
  rw [List.getD_eq_getElem _ _ (lt_trans hij hj), List.getD_eq_getElem _ _ hj]
  have := List.pairwise_iff_get.mp hs ⟨i, lt_trans hij hj⟩ ⟨j, hj⟩ hij
  simpa using this

/-- Invariant-style characterization of the binary-search loop: on a sorted
array, starting from a window `[lo, hi]` whose outside is already classified
(`< t` strictly below `lo`, `≥ t` strictly above `hi`), the loop returns the
first index whose entry is `≥ t` (or `hi + 1` if there is none). -/
lemma lowerBoundAux_spec (arr : List α) (t : α)
    (hmono : ∀ i j : Nat, i ≤ j → j < arr.length → arr.getD i 0 ≤ arr.getD j 0) :
    ∀ (fuel : Nat) (lo hi : Int), 0 ≤ lo → hi < (arr.length : Int) → lo ≤ hi + 1 →
    (hi + 1 - lo).toNat < fuel →
    (∀ j : Nat, (j : Int) < lo → j < arr.length → arr.getD j 0 < t) →
    (∀ j : Nat, hi < (j : Int) → j < arr.length → t ≤ arr.getD j 0) →
    lo ≤ lowerBoundAux arr t fuel lo hi ∧ lowerBoundAux arr t fuel lo hi ≤ hi + 1 ∧
    (∀ j : Nat, (j : Int) < lowerBoundAux arr t fuel lo hi → j < arr.length →
      arr.getD j 0 < t) ∧
    (∀ j : Nat, lowerBoundAux arr t fuel lo hi ≤ (j : Int) → j < arr.length →
      t ≤ arr.getD j 0) := by
  intro fuel
  induction fuel with
  | zero =>
    intro lo hi _ _ _ hfuel _ _
    omega
  | succ fuel ih =>
    intro lo hi hlo hhi hlohi hfuel hpre hpost
    simp only [lowerBoundAux]
    by_cases hle : lo ≤ hi
    · rw [if_pos hle]
      have hmid_lo : lo ≤ (lo + hi) / 2 := by omega
      have hmid_hi : (lo + hi) / 2 ≤ hi := by omega
      have hmid0 : 0 ≤ (lo + hi) / 2 := le_trans hlo hmid_lo
      have hmidlen : ((lo + hi) / 2).toNat < arr.length := by omega
      by_cases hcmp : arr.getD ((lo + hi) / 2).toNat 0 < t
      · rw [if_pos hcmp]
        have hres := ih ((lo + hi) / 2 + 1) hi (by omega) hhi (by omega) (by omega)
          (fun j hj hjlen =>
            lt_of_le_of_lt (hmono j ((lo + hi) / 2).toNat (by omega) hmidlen) hcmp)
          hpost
        exact ⟨le_trans (by omega) hres.1, hres.2.1, hres.2.2⟩
      · rw [if_neg hcmp]
        have hres := ih lo ((lo + hi) / 2 - 1) hlo (by omega) (by omega) (by omega) hpre
          (fun j hj hjlen =>
            le_trans (not_lt.mp hcmp) (hmono ((lo + hi) / 2).toNat j (by omega) hjlen))
        exact ⟨hres.1, by omega, hres.2.2⟩
    · rw [if_neg hle]
      refine ⟨le_refl lo, by omega, hpre, ?_⟩
      intro j hj hjlen
      exact hpost j (by omega) hjlen

/-- On a strictly sorted axis, `lowerBound` at the exact sample `times[k]`
returns `max 1 (min (len - 1) k)`. -/
lemma lowerBound_strict_at (arr : List α) (k : Nat) (hs : arr.Sorted (· < ·))
    (hk : k < arr.length) :
    lowerBound arr (arr.getD k 0) = max 1 (min (arr.length - 1) k) := by
  have hmono : ∀ i j : Nat, i ≤ j → j < arr.length → arr.getD i 0 ≤ arr.getD j 0 :=
    fun i j hij hj => sorted_getD_mono (hs.imp (fun h => le_of_lt h)) hij hj
  have hspec := lowerBoundAux_spec arr (arr.getD k 0) hmono (arr.length + 1) 0
    ((arr.length : Int) - 1) (le_refl 0) (by omega) (by omega) (by omega)
    (fun j hj _ => absurd hj (by omega))
    (fun j hj hjlen => absurd hjlen (by omega))
  obtain ⟨hr0, hrle, hpre, hpost⟩ := hspec
  have hrk : lowerBoundAux arr (arr.getD k 0) (arr.length + 1) 0 ((arr.length : Int) - 1) =
      (k : Int) := by
    set r := lowerBoundAux arr (arr.getD k 0) (arr.length + 1) 0 ((arr.length : Int) - 1)
      with hr
    rcases lt_trichotomy r (k : Int) with h | h | h
    · have hk1 : 1 ≤ k := by omega
      have h1 : arr.getD k 0 ≤ arr.getD (k - 1) 0 := hpost (k - 1) (by omega) (by omega)
      have h2 : arr.getD (k - 1) 0 < arr.getD k 0 := sorted_getD_strict hs (by omega) hk
      exact absurd (lt_of_le_of_lt h1 h2) (lt_irrefl _)
    · exact h
    · exact absurd (hpre k h hk) (lt_irrefl _)
  unfold lowerBound
  rw [hrk]
  omega

/-! ### Reading channels out of stored frame rows -/

lemma getD_mem_of_lt {l : List α} {n : Nat} (h : n < l.length) (d : α) :
    l.getD n d ∈ l := by
  rw [List.getD_eq_getElem _ _ h]
  exact List.get_mem l n h

lemma rows_getD_mem {fs : List (List α)} {n : Nat} (h : n < fs.length) :
    fs.getD n [] ∈ fs := by
  rw [List.getD_eq_getElem _ _ h]
  exact List.get_mem fs n h

/-- An in-range primary index makes `chanRead` return the stored value. -/
lemma chanRead_of_lt (fs : List (List α)) (idx j i : Nat) (h : idx < fs.length)
    (hwide : ∀ r ∈ fs, r.length = COLS) (hi : i < COLS) :
    chanRead fs idx j i = some ((fs.getD idx []).getD i 0) := by
  have hrowlen : (fs.getD idx []).length = COLS := hwide _ (rows_getD_mem h)
  simp only [chanRead, List.get?_eq_getElem?]
  rw [List.getElem?_eq_getElem h, Option.getD_some, List.getD_eq_getElem fs [] h]
  have hilen : i < fs[idx].length := by
    rw [← List.getD_eq_getElem fs [] h]
    omega
  rw [List.getElem?_eq_getElem hilen, List.getD_eq_getElem _ _ hilen]

/-- An out-of-range primary index falls back to row `j` (the JS `||`). -/
lemma chanRead_fallback (fs : List (List α)) (idx j i : Nat) (h : fs.length ≤ idx)
    (hj : j < fs.length) (hwide : ∀ r ∈ fs, r.length = COLS) (hi : i < COLS) :
    chanRead fs idx j i = some ((fs.getD j []).getD i 0) := by
  have hrowlen : (fs.getD j []).length = COLS := hwide _ (rows_getD_mem hj)
  simp only [chanRead, List.get?_eq_getElem?]
  rw [List.getElem?_eq_none h, Option.getD_none, List.getElem?_eq_getElem hj,
    Option.getD_some, List.getD_eq_getElem fs [] hj]
  have hilen : i < fs[j].length := by
    rw [← List.getD_eq_getElem fs [] hj]
    omega
  rw [List.getElem?_eq_getElem hilen, List.getD_eq_getElem _ _ hilen]

/-- Whatever the primary index, `chanRead` succeeds on wide rows when the
fallback index is in range. -/
lemma chanRead_isSome (fs : List (List α)) (idx j i : Nat) (hj : j < fs.length)
    (hwide : ∀ r ∈ fs, r.length = COLS) (hi : i < COLS) :
    ∃ v, chanRead fs idx j i = some v := by
  by_cases h : idx < fs.length
  · exact ⟨_, chanRead_of_lt fs idx j i h hwide hi⟩
  · exact ⟨_, chanRead_fallback fs idx j i (not_lt.mp h) hj hwide hi⟩

lemma catmullRom_zero (p0 p1 p2 p3 : α) : catmullRom p0 p1 p2 p3 0 = p1 := by
  unfold catmullRom
  ring

lemma catmullRom_one (p0 p1 p2 p3 : α) : catmullRom p0 p1 p2 p3 1 = p2 := by
  unfold catmullRom
  ring

lemma uOf_eq_of_some_some {times : List α} {i1 : Nat} {t0 t1 : α}
    (h0 : times.get? (i1 - 1) = some t0) (h1 : times.get? i1 = some t1) (t : α) :
    uOf times i1 t = if t0 < t1 then (t - t0) / (t1 - t0) else 0 := by
  unfold uOf
  rw [h0, h1]

lemma uOf_eq_of_none {times : List α} {i1 : Nat} (h1 : times.get? i1 = none) (t : α) :
    uOf times i1 t = 0 := by
  unfold uOf
  rw [h1]
  cases times.get? (i1 - 1) <;> rfl

lemma times_get?_some {times : List α} {n : Nat} (h : n < times.length) :
    times.get? n = some (times.getD n 0) := by
  rw [List.get?_eq_getElem?, List.getElem?_eq_getElem h, List.getD_eq_getElem _ _ h]

/-- C5 (confirmed): on a chunk whose time axis is strictly increasing (with
the well-formedness `pushChunk` guarantees for conforming input: one full
`COLS`-wide row per axis entry, every stored value already in `[0,1]`),
sampling the Catmull-Rom interpolator exactly at `times[k]` returns the
stored control frame `frames[k]` exactly on every channel: the local
parameter `u` degenerates to `0` (at `k = 0`, also on a zero-width/absent
bracket) or `1`, where the cubic basis reproduces `p1` resp. `p2`. -/
theorem sampleCatmullRom_exact (fs : List (List α)) (times : List α) (k i : Nat)
    (hs : times.Sorted (· < ·)) (hlen : fs.length = times.length)
    (hwide : ∀ r ∈ fs, r.length = COLS)
    (hval : ∀ r ∈ fs, ∀ v ∈ r, 0 ≤ v ∧ v ≤ 1)
    (hk : k < times.length) (hi : i < COLS) :
    sampleCatmullRom fs times (times.getD k 0) i = some ((fs.getD k []).getD i 0) := by
  have hfslen : k < fs.length := by omega
  have hlb := lowerBound_strict_at times k hs hk
  have hbounds : 0 ≤ (fs.getD k []).getD i 0 ∧ (fs.getD k []).getD i 0 ≤ 1 := by
    have hrmem := rows_getD_mem hfslen
    have hrlen : (fs.getD k []).length = COLS := hwide _ hrmem
    exact hval _ hrmem _ (getD_mem_of_lt (by omega) 0)
  rcases Nat.eq_zero_or_pos k with rfl | hk1
  · have hidx : lowerBound times (times.getD 0 0) = 1 := by
      rw [hlb]
      omega
    have hu : uOf times 1 (times.getD 0 0) = 0 := by
      rcases Nat.lt_or_ge 1 times.length with h2 | h2
      · rw [uOf_eq_of_some_some (times_get?_some (by omega)) (times_get?_some h2),
          if_pos (sorted_getD_strict hs (by omega) h2), sub_self, zero_div]
      · exact uOf_eq_of_none (by rw [List.get?_eq_getElem?, List.getElem?_eq_none (by omega)]) _
    unfold sampleCatmullRom
    rw [hidx]
    have hb := chanRead_of_lt fs 0 0 i (by omega) hwide hi
    obtain ⟨c, hc⟩ := chanRead_isSome fs 1 (fs.length - 1) i (by omega) hwide hi
    obtain ⟨d, hd⟩ := chanRead_isSome fs (min (1 + 1) (fs.length - 1)) (fs.length - 1) i
      (by omega) hwide hi
    rw [hb, hc, hd, hu]
    simp only [crClamp]
    rw [catmullRom_zero, clamp01_eq_self hbounds.1 hbounds.2]
  · have hidx : lowerBound times (times.getD k 0) = k := by
      rw [hlb]
      omega
    have hstrict : times.getD (k - 1) 0 < times.getD k 0 := sorted_getD_strict hs (by omega) hk
    have hu : uOf times k (times.getD k 0) = 1 := by
      rw [uOf_eq_of_some_some (times_get?_some (by omega)) (times_get?_some hk),
        if_pos hstrict, div_self (sub_ne_zero_of_ne (ne_of_gt hstrict))]
    unfold sampleCatmullRom
    rw [hidx]
    obtain ⟨a, ha⟩ := chanRead_isSome fs (k - 1 - 1) 0 i (by omega) hwide hi
    obtain ⟨b, hb⟩ := chanRead_isSome fs (k - 1) 0 i (by omega) hwide hi
    have hc := chanRead_of_lt fs k (fs.length - 1) i hfslen hwide hi
    obtain ⟨d, hd⟩ := chanRead_isSome fs (min (k + 1) (fs.length - 1)) (fs.length - 1) i
      (by omega) hwide hi
    rw [ha, hb, hc, hd, hu]
    simp only [crClamp]
    rw [catmullRom_one, clamp01_eq_self hbounds.1 hbounds.2]

/-- Witness frames for C5: two full 15-wide rows. -/
def fsW5 : List (List ℚ) := [List.replicate COLS 0, List.replicate COLS (1/2)]

/-- Witness for C5 at a concrete chunk (`times = [0, 1]`, query at `times[1]`,
channel 0): the sample reproduces the stored frame value exactly. -/
theorem sampleCatmullRom_exact_witness :
    ([0, 1] : List ℚ).Sorted (· < ·) ∧
    sampleCatmullRom fsW5 [0, 1] (([0, 1] : List ℚ).getD 1 0) 0 =
      some ((fsW5.getD 1 []).getD 0 0) :=
  ⟨by norm_num [List.sorted_cons],
    sampleCatmullRom_exact fsW5 [0, 1] 1 0 (by norm_num [List.sorted_cons])
      (by norm_num [fsW5])
      (by
        intro r hr
        rcases List.mem_cons.mp hr with rfl | hr2
        · simp
        · rcases List.mem_cons.mp hr2 with rfl | hr3
          · simp
          · simp at hr3)
      (by
        intro r hr v hv
        rcases List.mem_cons.mp hr with rfl | hr2
        · rw [List.eq_of_mem_replicate hv]
          norm_num
        · rcases List.mem_cons.mp hr2 with rfl | hr3
          · rw [List.eq_of_mem_replicate hv]
            norm_num
          · simp at hr3)
      (by norm_num) (by norm_num)⟩

/-! ### The range invariant (C1) -/

/-- Every pose channel holds a real (non-NaN) value in `[0,1]`. -/
def PoseOK (p : Fin COLS → JsNum α) : Prop :=
  ∀ i, ∃ v, p i = some v ∧ 0 ≤ v ∧ v ≤ 1

/-- Every channel holds some real (non-NaN) value. -/
def SomeVec (p : Fin COLS → JsNum α) : Prop := ∀ i, (p i).isSome

/-- Chunk wellformedness: every stored frame row is `COLS` wide and the
crossfade seed has no NaN channel. -/
def ChunkOK (c : Chunk α) : Prop :=
  (∀ r ∈ c.frames, r.length = COLS) ∧ SomeVec c.fadeInFrom

/-- The scheduler-state invariant behind the range property. -/
def StateOK (s : SchedState α) : Prop :=
  PoseOK s.pos ∧ SomeVec s.vel ∧ (∀ c ∈ s.queue, ChunkOK c) ∧
  ∀ c, s.active = some c → ChunkOK c

/-- Messages conforming to the documented `[N][15]` frame format: every
viseme row carries at least `COLS` entries. -/
def WideMsg (msg : Msg α) : Prop := ∀ r ∈ msg.viseme, COLS ≤ r.length

/-- The property of `Math.exp` the idle decay relies on: nonpositive inputs
map into `(0, 1]`. -/
def ExpOK (A : Analytic α) : Prop := ∀ x : α, x ≤ 0 → 0 < A.exp x ∧ A.exp x ≤ 1

lemma someVec_of_poseOK {p : Fin COLS → JsNum α} (h : PoseOK p) : SomeVec p := by
  intro i
  obtain ⟨v, hv, _, _⟩ := h i
  rw [hv]
  rfl

lemma mkChunk_ok {msg : Msg α} (muted : Bool) (hmsg : WideMsg msg) :
    ChunkOK (mkChunk msg muted) := by
  constructor
  · intro r hr
    simp only [mkChunk, List.mem_map] at hr
    obtain ⟨row, hrow, rfl⟩ := hr
    have := hmsg row hrow
    simp only [List.length_map, List.length_take]
    omega
  · intro i
    rfl

lemma beginChunk_ok {P : Params α} {now durEl : α} {curPos : Fin COLS → JsNum α}
    {ch : Chunk α} (hch : ChunkOK ch) (hcur : SomeVec curPos) :
    ChunkOK (beginChunk P now durEl curPos ch) :=
  ⟨hch.1, hcur⟩

lemma startNext_ok (P : Params α) (now : α) (s : SchedState α) (hs : StateOK s) :
    StateOK (startNext P now s) := by
  obtain ⟨hpos, hvel, hq, ha⟩ := hs
  cases hA : s.active with
  | some c =>
    simp only [startNext, hA]
    exact ⟨hpos, hvel, hq, ha⟩
  | none =>
    cases hQ : s.queue with
    | nil =>
      simp only [startNext, hA, hQ]
      exact ⟨hpos, hvel, hq, ha⟩
    | cons ch rest =>
      have hch : ChunkOK ch := hq ch (by rw [hQ]; exact List.mem_cons_self ch rest)
      have hrest : ∀ c ∈ rest, ChunkOK c :=
        fun c hc => hq c (by rw [hQ]; exact List.mem_cons_of_mem ch hc)
      simp only [startNext, hA, hQ]
      split
      · refine ⟨hpos, hvel, hrest, ?_⟩
        intro c' h
        simp only [Option.some.injEq] at h
        exact h ▸ hch
      · refine ⟨hpos, hvel, hrest, ?_⟩
        intro c' h
        simp only [Option.some.injEq] at h
        exact h ▸ beginChunk_ok hch (someVec_of_poseOK hpos)

lemma pushChunk_ok (P : Params α) (now : α) (msg : Msg α) (s : SchedState α)
    (hmsg : WideMsg msg) (hs : StateOK s) : StateOK (pushChunk P now msg s) := by
  apply startNext_ok
  obtain ⟨hpos, hvel, hq, ha⟩ := hs
  refine ⟨hpos, hvel, ?_, fun c h => ha c h⟩
  intro c hc
  rcases List.mem_append.mp hc with h | h
  · exact hq c h
  · rw [List.mem_singleton] at h
    exact h ▸ mkChunk_ok s.muted hmsg

lemma audioMeta_ok (P : Params α) (now : α) (mediaDur : Option α) (s : SchedState α)
    (hs : StateOK s) : StateOK (audioMeta P now mediaDur s) := by
  obtain ⟨hpos, hvel, hq, ha⟩ := hs
  cases hA : s.active with
  | none =>
    simp only [audioMeta, hA]
    exact ⟨hpos, hvel, hq, ha⟩
  | some ch =>
    simp only [audioMeta, hA]
    split
    · refine ⟨hpos, hvel, hq, ?_⟩
      intro c' h
      simp only [Option.some.injEq] at h
      exact h ▸ beginChunk_ok (ha ch hA) (someVec_of_poseOK hpos)
    · exact ⟨hpos, hvel, hq, ha⟩

lemma stop_ok (s : SchedState α) (hs : StateOK s) : StateOK (stop s) := by
  obtain ⟨hpos, hvel, _, _⟩ := hs
  exact ⟨hpos, hvel, by simp [stop], fun c h => Option.noConfusion h⟩

lemma setMuted_ok (b : Bool) (s : SchedState α) (hs : StateOK s) :
    StateOK (setMuted b s) := hs

lemma completeActive_ok (P : Params α) (now : α) (s : SchedState α) (hs : StateOK s) :
    StateOK (completeActive P now s) := by
  apply startNext_ok
  obtain ⟨hpos, hvel, hq, _⟩ := hs
  exact ⟨hpos, hvel, hq, fun c h => Option.noConfusion h⟩

lemma sampleCatmullRom_isSome (fs : List (List α)) (times : List α) (t : α) (i : Nat)
    (hne : 0 < fs.length) (hwide : ∀ r ∈ fs, r.length = COLS) (hi : i < COLS) :
    ∃ w, sampleCatmullRom fs times t i = some (clamp01 w) := by
  obtain ⟨a, ha⟩ := chanRead_isSome fs (lowerBound times t - 1 - 1) 0 i hne hwide hi
  obtain ⟨b, hb⟩ := chanRead_isSome fs (lowerBound times t - 1) 0 i hne hwide hi
  obtain ⟨c, hc⟩ := chanRead_isSome fs (lowerBound times t) (fs.length - 1) i
    (by omega) hwide hi
  obtain ⟨d, hd⟩ := chanRead_isSome fs (min (lowerBound times t + 1) (fs.length - 1))
    (fs.length - 1) i (by omega) hwide hi
  unfold sampleCatmullRom
  rw [ha, hb, hc, hd]
  exact ⟨_, rfl⟩

lemma activeUpd_some (P : Params α) (A : Analytic α) (now : α) (ap : Option α)
    (ch : Chunk α) (s : SchedState α) (i : Fin COLS) (hch : ChunkOK ch)
    (hfr : 0 < ch.frames.length) (hpos : SomeVec s.pos) (hvel : SomeVec s.vel) :
    ∃ w u, activeUpd P A now ap ch s i = (some (clamp01 w), some u) := by
  obtain ⟨w0, hw0⟩ := sampleCatmullRom_isSome ch.frames ch.times (clockOf now ap ch)
    i.val hfr hch.1 i.isLt
  have htgt : ∃ tv, targetOf P now (clockOf now ap ch) ch i = some tv := by
    unfold targetOf
    split
    · obtain ⟨fv, hfv⟩ := Option.isSome_iff_exists.mp (hch.2 i)
      rw [hfv, hw0]
      exact ⟨_, rfl⟩
    · exact ⟨_, hw0⟩
  obtain ⟨tv, htv⟩ := htgt
  obtain ⟨pv, hpv⟩ := Option.isSome_iff_exists.mp (hpos i)
  obtain ⟨vv, hvv⟩ := Option.isSome_iff_exists.mp (hvel i)
  unfold activeUpd
  rw [htv, hpv, hvv]
  exact ⟨_, _, rfl⟩

lemma dtOf_pos (now lastTick : α) : 0 < dtOf now lastTick :=
  lt_of_lt_of_le (by norm_num) (le_max_left _ _)

lemma decayK_bounds (P : Params α) (A : Analytic α) (hexp : ExpOK A)
    (hdecay : 0 ≤ P.neutralDecayPerSec) (now lastTick : α) :
    0 < decayK P A now lastTick ∧ decayK P A now lastTick ≤ 1 := by
  apply hexp
  rw [neg_mul]
  exact neg_nonpos.mpr (mul_nonneg hdecay (le_of_lt (dtOf_pos now lastTick)))

/-- One `getFrame` call preserves the state invariant, and its result is
exactly the updated pose vector. -/
lemma getFrame_ok (P : Params α) (A : Analytic α) (hdecay : 0 ≤ P.neutralDecayPerSec)
    (hexp : ExpOK A) (now : α) (ap : Option α) (s : SchedState α) (hs : StateOK s) :
    StateOK (getFrame P A now ap s).2 ∧
    (getFrame P A now ap s).1 = some (List.ofFn (getFrame P A now ap s).2.pos) := by
  obtain ⟨hpos, hvel, hq, ha⟩ := hs
  have hk := decayK_bounds P A hexp hdecay now s.lastTick
  have hidle : StateOK (idleStep P A now s).2 ∧
      (idleStep P A now s).1 = some (List.ofFn (idleStep P A now s).2.pos) := by
    refine ⟨⟨?_, ?_, hq, ha⟩, rfl⟩
    · intro i
      obtain ⟨v, hv, hv0, hv1⟩ := hpos i
      refine ⟨v * decayK P A now s.lastTick, ?_, mul_nonneg hv0 (le_of_lt hk.1),
        le_trans (mul_le_of_le_one_right hv0 hk.2) hv1⟩
      show (s.pos i).map _ = _
      rw [hv]
      rfl
    · intro i
      obtain ⟨vv, hvv⟩ := Option.isSome_iff_exists.mp (hvel i)
      show ((s.vel i).map _).isSome
      rw [hvv]
      rfl
  cases hA : s.active with
  | none =>
    simp only [getFrame, hA]
    exact hidle
  | some ch =>
    simp only [getFrame, hA]
    split
    · exact hidle
    · rename_i hguard
      push_neg at hguard
      have hch : ChunkOK ch := ha ch hA
      have hfr : 0 < ch.frames.length := Nat.pos_of_ne_zero hguard.1
      have hupd := fun i => activeUpd_some P A now ap ch s i hch hfr
        (someVec_of_poseOK hpos) hvel
      refine ⟨⟨?_, ?_, hq, ?_⟩, rfl⟩
      · intro i
        obtain ⟨w, u, hwu⟩ := hupd i
        refine ⟨clamp01 w, ?_, clamp01_nonneg w, clamp01_le_one w⟩
        show (activeUpd P A now ap ch s i).1 = _
        rw [hwu]
      · intro i
        obtain ⟨w, u, hwu⟩ := hupd i
        show ((activeUpd P A now ap ch s i).2).isSome
        rw [hwu]
        rfl
      · intro c' h
        have he : (activeStep P A now ap ch s).2.active = s.active := rfl
        rw [he, hA] at h
        simp only [Option.some.injEq] at h
        exact h ▸ hch

/-- Every state reachable through the public interface with conforming
(`[N][15]`) messages satisfies the invariant. -/
lemma reachable_stateOK (P : Params α) (A : Analytic α)
    (hdecay : 0 ≤ P.neutralDecayPerSec) (hexp : ExpOK A) {s : SchedState α}
    (h : Reachable P A WideMsg s) : StateOK s := by
  induction h with
  | init t0 =>
    exact ⟨fun i => ⟨0, rfl, le_refl 0, zero_le_one⟩, fun i => rfl,
      fun c hc => absurd hc (List.not_mem_nil c), fun c h => Option.noConfusion h⟩
  | push now msg _ hQ ih => exact pushChunk_ok _ _ _ _ hQ ih
  | tick now ap _ ih => exact (getFrame_ok P A hdecay hexp now ap _ ih).1
  | stopEv _ ih => exact stop_ok _ ih
  | mute b _ ih => exact setMuted_ok b _ ih
  | meta now mediaDur _ ih => exact audioMeta_ok _ _ _ _ ih
  | ended now _ ih => exact completeActive_ok _ _ _ ih

/-- C1 (amended): for every scheduler state reachable through the public
interface with conforming messages (every pushed viseme row at least
`COLS = 15` entries wide), with a non-negative idle decay rate and an
exponential mapping nonpositive inputs into `(0, 1]` (true of `Math.exp`),
every channel value returned by `getFrame` is a real number in `[0, 1]`:
the active branch ends in a per-channel `clamp01`, and the idle branch
multiplies an in-range value by `k ∈ (0, 1]`. -/
theorem getFrame_range (P : Params α) (A : Analytic α) (hexp : ExpOK A)
    (hdecay : 0 ≤ P.neutralDecayPerSec) {s : SchedState α}
    (hreach : Reachable P A WideMsg s) (now : α) (ap : Option α) (j : Nat) (x : JsNum α)
    (hx : ((getFrame P A now ap s).1.getD []).get? j = some x) :
    ∃ v, x = some v ∧ 0 ≤ v ∧ v ≤ 1 := by
  have hs := reachable_stateOK P A hdecay hexp hreach
  have hnext := getFrame_ok P A hdecay hexp now ap s hs
  rw [hnext.2, Option.getD_some, List.get?_eq_getElem?] at hx
  rcases Nat.lt_or_ge j COLS with hj | hj
  · have hjlen : j < (List.ofFn (getFrame P A now ap s).2.pos).length := by
      simpa using hj
    rw [List.getElem?_eq_getElem hjlen] at hx
    have hxe : (List.ofFn (getFrame P A now ap s).2.pos)[j] = x := by
      exact Option.some.inj hx
    obtain ⟨v, hv, h0, h1⟩ := hnext.1.1 ⟨j, hj⟩
    refine ⟨v, ?_, h0, h1⟩
    rw [← hxe, List.getElem_ofFn]
    exact hv
  · rw [List.getElem?_eq_none (by simpa using hj)] at hx
    exact Option.noConfusion hx

/-- Witness for C1 (amended) at the real-number semantics: the initial state
is reachable, and the theorem applied to its first returned channel (which
evaluates to `0 * exp(-dt)`, i.e. `0`) certifies it lies in `[0, 1]`. -/
theorem getFrame_range_witness :
    ExpOK realAnalytic ∧ (0 : ℝ) ≤ ({} : Params ℝ).neutralDecayPerSec ∧
    (∃ v, (some (0 : ℝ) : JsNum ℝ) = some v ∧ 0 ≤ v ∧ v ≤ 1) := by
  have hexp : ExpOK realAnalytic := by
    intro x hx
    exact ⟨Real.exp_pos x, Real.exp_le_one_iff.mpr hx⟩
  refine ⟨hexp, by norm_num, ?_⟩
  apply getFrame_range ({} : Params ℝ) realAnalytic hexp (by norm_num)
    (Reachable.init 0) 1 none 0 (some (0 : ℝ))
  have hfn : (getFrame ({} : Params ℝ) realAnalytic 1 none (initState 0)).1 =
      some (List.ofFn fun i : Fin COLS =>
        ((initState (0 : ℝ)).pos i).map
          (fun x => x * decayK ({} : Params ℝ) realAnalytic 1 (0 : ℝ))) := rfl
  rw [hfn, Option.getD_some, List.get?_eq_getElem?,
    List.getElem?_eq_getElem (by simp : 0 < (List.ofFn _).length), List.getElem_ofFn]
  show some (Option.map _ (some (0 : ℝ))) = _
  rw [Option.map_some']
  rw [zero_mul]

/-- C1 counterexample input: a single frame whose row carries one entry
instead of 15. -/
def msgC1 : Msg ℚ := { viseme := [[1/2]], duration_ms := some 1000 }

/-- Rational instantiation of the transcendental record used by concrete
counterexamples; the counterexample's active branch consumes neither `exp`
nor `pi`, so their stub values are irrelevant to the fact proved. -/
def ratAnalytic : Analytic ℚ := ⟨fun _ => 1, 3⟩

/-- The reachable counterexample state for C1: push `msgC1` into a fresh
scheduler (the no-audio chunk activates synchronously). -/
def sC1 : SchedState ℚ := pushChunk {} 0 msgC1 (initState 0)

/-- C1 (counterexample): in the reachable state `sC1` (reachable without any
row-width restriction), the `getFrame` result's channel 1 is NaN (`none`) —
the stored 1-entry row makes `f[1]` read as `undefined`, which poisons the
Catmull-Rom sample, the spring filter and the clamp — so the returned value
is not a real number in `[0, 1]`. -/
theorem getFrame_nan_channel :
    Reachable ({} : Params ℚ) ratAnalytic (fun _ => True) sC1 ∧
    ((getFrame ({} : Params ℚ) ratAnalytic 1 none sC1).1.getD []).get? 1 = some none := by
  constructor
  · exact Reachable.push 0 msgC1 (Reachable.init 0) trivial
  · norm_num [sC1, pushChunk, startNext, initState, mkChunk, msgC1, strTruthy, jsOr,
      buildTimes, List.range_succ, max_def, getFrame, activeStep, activeUpd, targetOf,
      clockOf, freqOf, beginChunk, dtOf, min_def, sampleCatmullRom, uOf, lowerBound,
      lowerBoundAux, chanRead, crClamp, List.get?, clamp01, List.getLastD, springChan]

end VisemeScheduler
